import Mathlib

/-!
Verification of the knowledge retrieval and deduplication core of the
atti-agent-template repository: `KnowledgeLoader`
(src/knowledge_loader_v2_1_0.py) and `DeltaDetector`
(src/dynamic_updates/delta_detector.py).

The Python code is shallowly embedded: JSON dictionaries become Lean
structures, the loader's mutable attributes become an explicit
`LoaderState` threaded through the operations, Python floats become exact
rationals (the claims under study concern ordering, filtering and state,
none of which depend on floating-point rounding), and exceptions become
`Option`/`Except`-style error results.  The filesystem is a map from
relative path to file data; a file's SHA256 digest is carried as a field
of the file data (the digest is a function of the on-disk bytes, which the
model does not otherwise inspect).
-/

/-- A knowledge block, the atomic retrievable unit of a package
(`knowledge_blocks` entries of a package JSON file).  Fields mirror the
keys read by `knowledge_loader_v2_1_0.py`; keys the code reads with
`.get(key, default)` are modelled as total fields, the default being
applied at the parse boundary. -/
structure Block where
  id : String
  conteudo : String
  nivel_complexidade : String
  persona_alvo : String
  tags : List String
  regulatory_flag : Bool
  embedding_priority : ℚ
  retrieval_weight : ℚ
  vector_ready : Bool
  cross_package_reference : List String
  knowledge_version : String
  categoria_macro : String
  subcategoria : String
deriving DecidableEq, Repr

/-- A knowledge package: one JSON document per segment, holding its
ordered `knowledge_blocks` list. -/
structure Package where
  knowledge_blocks : List Block
deriving DecidableEq, Repr

/-- One entry of the manifest's `packages` list: segment name, relative
file path, and the expected SHA256 digest (`hash_integridade`). -/
structure PkgMeta where
  segmento : String
  file : String
  hash_integridade : String
deriving DecidableEq, Repr

/-- On-disk package file: its SHA256 digest together with its parsed
content.  `hash` models the digest `KnowledgeLoader._validate_hash`
computes by streaming the file's bytes. -/
structure FileData where
  hash : String
  content : Package
deriving DecidableEq, Repr

/-- The filesystem visible to the loader: relative path to file data,
`none` when no file exists at that path. -/
abbrev FS := String → Option FileData

/-- Mutable state of a `KnowledgeLoader`: `_packages` (an
insertion-ordered dictionary keyed by segment name, modelled as an
association list with Python-dict update semantics) and `_blocks_cache`
(the flat block cache, `none` when stale). -/
structure LoaderState where
  packages : List (String × Package)
  blocks_cache : Option (List Block)
deriving DecidableEq, Repr

/-- Lookup in an insertion-ordered dictionary (first matching key). -/
def lookupSeg {α : Type} : List (String × α) → String → Option α
  | [], _ => none
  | (k', v) :: t, k => if k' = k then some v else lookupSeg t k

/-- Python-dict assignment `d[k] = v`: replace the value in place if the
key is present (keeping its position), otherwise append at the end. -/
def dictInsert {α : Type} : List (String × α) → String → α → List (String × α)
  | [], k, v => [(k, v)]
  | (k', v') :: t, k, v =>
    if k' = k then (k, v) :: t else (k', v') :: dictInsert t k v

/-- Errors raised by the loader: `IntegrityError` from
`_validate_hash`, `KnowledgeLoaderError` for a missing package file in
`load_all_packages`, `KnowledgeLoaderError` for an unknown segment in
`load_package`, and the OS-level error from opening a missing file in
`load_package`. -/
inductive LoaderError where
  | integrityError (segment : String)
  | packageFileMissing (path : String)
  | segmentNotFound (segment : String)
  | fileReadError (path : String)
deriving DecidableEq, Repr

/-- Observable state-mutation events of a `load_all_packages` pass, in
source execution order: the `self._blocks_cache = None` assignment and
each `self._packages[segment] = package` assignment. -/
inductive LoadEvent where
  | cacheInvalidate
  | pkgInsert (segment : String)
deriving DecidableEq, Repr

/-- Result of a (possibly failing) `load_all_packages` call: the loader
state when the call returns or the exception escapes, the error if one
was raised, and the ordered log of mutation events. -/
structure LoadResult where
  state : LoaderState
  error : Option LoaderError
  events : List LoadEvent
deriving DecidableEq, Repr

/-- The loop body of `KnowledgeLoader.load_all_packages`: for each
manifest entry, check the file exists, optionally validate its hash, and
insert the parsed package into `_packages`.  An exception stops the loop,
leaving the mutations made so far in place. -/
def load_all_go (fs : FS) (vi : Bool) : List PkgMeta → LoaderState → LoadResult
  | [], st => ⟨st, none, []⟩
  | meta :: rest, st =>
    match fs meta.file with
    | none => ⟨st, some (.packageFileMissing meta.file), []⟩
    | some fd =>
      if vi = true ∧ fd.hash ≠ meta.hash_integridade then
        ⟨st, some (.integrityError meta.segmento), []⟩
      else
        let r := load_all_go fs vi rest
          ⟨dictInsert st.packages meta.segmento fd.content, st.blocks_cache⟩
        ⟨r.state, r.error, .pkgInsert meta.segmento :: r.events⟩

/-- `KnowledgeLoader.load_all_packages`: invalidate the flat block cache,
then load every package listed in the manifest. -/
def load_all_packages (fs : FS) (vi : Bool) (manifest : List PkgMeta)
    (st : LoaderState) : LoadResult :=
  let r := load_all_go fs vi manifest ⟨st.packages, none⟩
  ⟨r.state, r.error, .cacheInvalidate :: r.events⟩

/-- The manifest scan of `KnowledgeLoader.load_package`: find the first
manifest entry for the requested segment; if the segment is not cached,
read (validating if configured) and cache it and invalidate the flat
cache; return the cached package. -/
def load_package_go (fs : FS) (vi : Bool) (segment : String) :
    List PkgMeta → LoaderState → LoaderState × Except LoaderError Package
  | [], st => (st, .error (.segmentNotFound segment))
  | meta :: rest, st =>
    if meta.segmento = segment then
      match lookupSeg st.packages segment with
      | some pkg => (st, .ok pkg)
      | none =>
        match fs meta.file with
        | none => (st, .error (.fileReadError meta.file))
        | some fd =>
          if vi = true ∧ fd.hash ≠ meta.hash_integridade then
            (st, .error (.integrityError segment))
          else
            (⟨dictInsert st.packages segment fd.content, none⟩, .ok fd.content)
    else load_package_go fs vi segment rest st

/-- `KnowledgeLoader.load_package`. -/
def load_package (fs : FS) (vi : Bool) (manifest : List PkgMeta)
    (st : LoaderState) (segment : String) :
    LoaderState × Except LoaderError Package :=
  load_package_go fs vi segment manifest st

/-- `KnowledgeLoader._all_blocks`: return the flat list of all blocks
across loaded packages, computing and memoising it when the cache is
stale. -/
def all_blocks (st : LoaderState) : LoaderState × List Block :=
  match st.blocks_cache with
  | some c => (st, c)
  | none =>
    let c := (st.packages.map (fun p => p.2.knowledge_blocks)).flatten
    (⟨st.packages, some c⟩, c)

/-- The package content at a manifest entry's path, defaulting to an
empty package when the file is absent (only used under hypotheses that
make the file present). -/
def fileContentD (fs : FS) (meta : PkgMeta) : Package :=
  ((fs meta.file).map (fun fd => fd.content)).getD ⟨[]⟩

/-- A manifest entry loads without error: its file exists and, when
integrity validation is on, its digest matches the manifest. -/
def loadsOk (fs : FS) (vi : Bool) (meta : PkgMeta) : Prop :=
  ∃ fd, fs meta.file = some fd ∧ (vi = true → fd.hash = meta.hash_integridade)

/-- The cumulative effect on the package dictionary of successfully
processing a list of manifest entries. -/
def applyMetas (fs : FS) : List PkgMeta → List (String × Package) → List (String × Package)
  | [], d => d
  | meta :: rest, d => applyMetas fs rest (dictInsert d meta.segmento (fileContentD fs meta))

/-- Python `str.lower()`, modelled character-wise. -/
def lowerS (s : String) : String := (s.toList.map Char.toLower).asString

/-- Python `str.strip()` on a character list: drop whitespace from both
ends. -/
def trimCL (l : List Char) : List Char :=
  ((l.dropWhile Char.isWhitespace).reverse.dropWhile Char.isWhitespace).reverse

/-- Python `text.lower().strip()`, the normalisation applied by
`DeltaDetector` before hashing and comparing. -/
def normalizeText (s : String) : String := (trimCL (s.toList.map Char.toLower)).asString

/-- Worker for `wordsCL`: `acc` holds the reversed current word. -/
def wordsAux : List Char → List Char → List (List Char)
  | [], acc => if acc = [] then [] else [acc.reverse]
  | c :: t, acc =>
    if c.isWhitespace then
      if acc = [] then wordsAux t [] else acc.reverse :: wordsAux t []
    else wordsAux t (c :: acc)

/-- Python `str.split()` on a character list: maximal runs of
non-whitespace characters. -/
def wordsCL (l : List Char) : List (List Char) := wordsAux l []

/-- Python `s.split()` (whitespace split, no empty words). -/
def splitWs (s : String) : List String := (wordsCL s.toList).map List.asString

/-- Python `needle in hay` on character lists (contiguous substring). -/
def containsSubL (hay needle : List Char) : Bool :=
  needle.isPrefixOf hay ||
    match hay with
    | [] => false
    | _ :: t => containsSubL t needle

/-- Python `hay.count(needle)` on character lists: non-overlapping
occurrences, scanning left to right; the empty needle counts
`length + 1` occurrences as in Python. -/
def countSubL (hay needle : List Char) : Nat :=
  match needle with
  | [] => hay.length + 1
  | n :: ns =>
    match hay with
    | [] => 0
    | h :: t =>
      if (n :: ns).isPrefixOf (h :: t) then 1 + countSubL (t.drop ns.length) (n :: ns)
      else countSubL t (n :: ns)
termination_by hay.length
decreasing_by
  · simp only [List.length_drop, List.length_cons]
    omega
  · simp

/-- Python `needle in hay` for strings. -/
def containsSubS (hay needle : String) : Bool := containsSubL hay.toList needle.toList

/-- Python `hay.count(needle)` for strings. -/
def countSubS (hay needle : String) : Nat := countSubL hay.toList needle.toList

/-- Insert an element into a list sorted non-increasingly by `key`,
placing it after all strictly greater keys and before equal ones; the
building block of the model of Python's stable descending sort. -/
def insertByKeyDesc {α : Type} (key : α → ℚ) (x : α) : List α → List α
  | [] => [x]
  | y :: ys => if key x < key y then y :: insertByKeyDesc key x ys else x :: y :: ys

/-- Python `sorted(l, key=key, reverse=True)` / `l.sort(key=key,
reverse=True)`: the unique permutation that is non-increasing in `key`
and keeps elements with equal keys in their original order (Python's sort
is stable).  Modelled as a stable insertion sort, which produces exactly
that permutation. -/
def sortByKeyDesc {α : Type} (key : α → ℚ) : List α → List α
  | [] => []
  | x :: xs => insertByKeyDesc key x (sortByKeyDesc key xs)

/-- The combined searchable text of a block in
`KnowledgeLoader.search_blocks`: lowercased content, space-joined
lowercased tags, and lowercased subcategory, joined by single spaces. -/
def blockCombined (b : Block) : String :=
  lowerS b.conteudo ++ " " ++ lowerS (String.intercalate " " b.tags) ++ " " ++
    lowerS b.subcategoria

/-- The relevance score `search_blocks` computes for one block: a fixed
bonus of 2 when the whole lowercased query occurs in the combined text,
plus 0.1 per non-overlapping occurrence of each distinct query term,
scaled by the block's `retrieval_weight`. -/
def blockScore (query : String) (b : Block) : ℚ :=
  let ql := lowerS query
  let terms := (splitWs ql).eraseDups
  let combined := blockCombined b
  ((if containsSubS combined ql then (2 : ℚ) else 0) +
    (terms.map (fun t => (countSubS combined t : ℚ) * (1 / 10))).sum) *
    b.retrieval_weight

/-- The scored candidate list `search_blocks` builds: each block of the
source paired with its score, keeping only strictly positive scores, in
source order. -/
def searchScored (query : String) (source : List Block) : List (ℚ × Block) :=
  source.filterMap (fun b =>
    let s := blockScore query b
    if 0 < s then some (s, b) else none)

/-- `KnowledgeLoader.search_blocks` on a block source: score, keep
positive scores, stable-sort descending by score, truncate to `top_k`. -/
def search_blocks (query : String) (source : List Block) (top_k : Nat) : List Block :=
  ((sortByKeyDesc Prod.fst (searchScored query source)).take top_k).map Prod.snd

/-- `KnowledgeLoader.get_top_blocks_by_priority` (default segment, i.e.
over the flat block cache): stable sort descending by
`embedding_priority`, truncated to `n`. -/
def get_top_blocks_by_priority (st : LoaderState) (n : Nat) : LoaderState × List Block :=
  let r := all_blocks st
  (r.1, (sortByKeyDesc (fun b => b.embedding_priority) r.2).take n)

/-- The metadata object `prepare_for_vectorization` attaches to each
emitted document. -/
structure VectorMetadata where
  segment : String
  subcategoria : String
  nivel_complexidade : String
  persona_alvo : String
  tags : List String
  embedding_priority : ℚ
  retrieval_weight : ℚ
  regulatory_flag : Bool
  cross_package_reference : List String
  knowledge_version : String
deriving DecidableEq, Repr

/-- A document emitted by `prepare_for_vectorization`: id, raw content as
text, and the metadata bundle. -/
structure VectorDoc where
  id : String
  text : String
  metadata : VectorMetadata
deriving DecidableEq, Repr

/-- The document built from one vector-ready block. -/
def toVectorDoc (b : Block) : VectorDoc :=
  ⟨b.id, b.conteudo,
    ⟨b.categoria_macro, b.subcategoria, b.nivel_complexidade, b.persona_alvo,
      b.tags, b.embedding_priority, b.retrieval_weight, b.regulatory_flag,
      b.cross_package_reference, b.knowledge_version⟩⟩

/-- `KnowledgeLoader.prepare_for_vectorization` on a block source: skip
blocks whose `vector_ready` flag is not true, project the rest. -/
def prepare_for_vectorization (source : List Block) : List VectorDoc :=
  source.filterMap (fun b => if b.vector_ready then some (toVectorDoc b) else none)

/-- A raw block of a legacy `knowledge_packages/*.json` file, the shape
`DeltaDetector._build_knowledge_index` reads (`id`, `content`, `title`,
`segment`, each defaulting to the empty string). -/
structure RawBlock where
  id : String
  content : String
  title : String
  segment : String
deriving DecidableEq, Repr

/-- One value of the detector's knowledge index: raw content, title,
segment, the hash of the normalised content, and the extracted
keywords. -/
structure IndexEntry where
  content : String
  title : String
  segment : String
  hash : String
  keywords : List String
deriving DecidableEq, Repr

/-- The bilingual stopword set of `DeltaDetector._extract_keywords`. -/
def deltaStopwords : List String :=
  ["o", "a", "de", "do", "da", "em", "para", "com", "por", "que",
   "the", "is", "at", "which", "on", "and", "or", "an", "as", "are"]

/-- Python `w.strip('.,!?;:')`: drop those characters from both ends. -/
def stripPunct (w : String) : String :=
  let punct : List Char := ['.', ',', '!', '?', ';', ':']
  (((w.toList.dropWhile (fun c => punct.contains c)).reverse.dropWhile
    (fun c => punct.contains c)).reverse).asString

/-- `DeltaDetector._extract_keywords`: lowercase and split the text, keep
words longer than 4 characters that are not stopwords, strip surrounding
punctuation, deduplicate, truncate to `top_n` (default 10).  Python
deduplicates via `list(set(...))`, whose order is unspecified; the model
keeps first occurrences.  No claim under study depends on this order,
because `_calculate_keyword_overlap` ignores its argument. -/
def extract_keywords (text : String) (top_n : Nat := 10) : List String :=
  (((splitWs (lowerS text)).filter
      (fun w => 4 < w.length ∧ w ∉ deltaStopwords)).map stripPunct).eraseDups.take top_n

/-- `DeltaDetector._hash_text`: SHA256 hex digest of the
lowercased-and-trimmed text.  The digest itself is abstracted as the
parameter `hashFn`, applied to the normalised text exactly as the source
applies `hashlib.sha256` to it. -/
def hash_text (hashFn : String → String) (text : String) : String :=
  hashFn (normalizeText text)

/-- `DeltaDetector._calculate_similarity`: 0 when either raw text is
empty, otherwise the `difflib.SequenceMatcher.ratio` of the two
normalised texts; the ratio computation is abstracted as the parameter
`ratioFn`. -/
def calculate_similarity (ratioFn : String → String → ℚ) (text1 text2 : String) : ℚ :=
  if text1 = "" ∨ text2 = "" then 0
  else ratioFn (normalizeText text1) (normalizeText text2)

/-- `DeltaDetector._calculate_keyword_overlap`: the source stubs this
tier to always return 0.0. -/
def calculate_keyword_overlap (_keywords : List String) : ℚ := 0

/-- The index value `_build_knowledge_index` stores for one raw block. -/
def mkIndexEntry (hashFn : String → String) (b : RawBlock) : IndexEntry :=
  ⟨b.content, b.title, b.segment, hash_text hashFn b.content,
    extract_keywords b.content⟩

/-- `DeltaDetector._build_knowledge_index` restricted to the blocks it
successfully parses: blocks with a non-empty id are indexed by id, later
duplicates overwriting earlier ones in place (Python dict semantics). -/
def build_knowledge_index (hashFn : String → String) :
    List RawBlock → List (String × IndexEntry)
  | [] => []
  | b :: rest =>
    if b.id = "" then build_knowledge_index hashFn rest
    else dictInsert (build_knowledge_index hashFn rest) b.id (mkIndexEntry hashFn b)

/-- New incoming content, a JSON object modelled as an association list
of string fields (the fields `has_significant_changes` reads are
strings). -/
abbrev NewContent := List (String × String)

/-- Python `new_content.get(key, "")`. -/
def getFieldD (nc : NewContent) (key : String) : String := (lookupSeg nc key).getD ""

/-- The text `has_significant_changes` extracts:
`new_content.get("content", "") or new_content.get("text", "")`. -/
def extractText (nc : NewContent) : String :=
  let c := getFieldD nc "content"
  if c ≠ "" then c else getFieldD nc "text"

/-- The maximum similarity of the new text against the indexed contents,
as tracked by the loop in `has_significant_changes` (starting from 0). -/
def maxSimilarity (ratioFn : String → String → ℚ) (idx : List (String × IndexEntry))
    (text : String) : ℚ :=
  idx.foldl (fun m e => max m (calculate_similarity ratioFn text e.2.content)) 0

/-- `DeltaDetector.has_significant_changes`: returns `false` for an empty
dict or empty extracted text, then applies the three tiers — exact hash
match against any indexed entry, maximum sequence similarity above the
0.85 threshold, keyword overlap above 0.9 (a dead tier, since the overlap
computation is stubbed to 0) — and returns `true` only when no tier
fires. -/
def has_significant_changes (hashFn : String → String)
    (ratioFn : String → String → ℚ) (idx : List (String × IndexEntry))
    (nc : NewContent) : Bool :=
  if nc = [] then false
  else
    let text := extractText nc
    if text = "" then false
    else
      let content_hash := hash_text hashFn text
      if idx.any (fun e => e.2.hash = content_hash) then false
      else if (85 : ℚ) / 100 < maxSimilarity ratioFn idx text then false
      else if (9 : ℚ) / 10 < calculate_keyword_overlap (extract_keywords text) then false
      else true

/-- A minimal concrete block used by the concrete scenarios below. -/
def cBlock (ident : String) : Block :=
  ⟨ident, "", "", "", [], false, 0, 1, false, [], "2.1.0", "", ""⟩

/-- A concrete vector-ready block with id "x". -/
def cBlockX : Block := ⟨"x", "", "", "", [], false, 0, 1, true, [], "2.1.0", "", ""⟩

/-- Concrete package holding the single block "a". -/
def cPkgA : Package := ⟨[cBlock "a"]⟩

/-- Concrete package holding the single block "b". -/
def cPkgB : Package := ⟨[cBlock "b"]⟩

/-- Concrete manifest entry for segment A. -/
def cMetaA : PkgMeta := ⟨"A", "f1", "h1"⟩

/-- Concrete manifest entry for segment B. -/
def cMetaB : PkgMeta := ⟨"B", "f2", "h2"⟩

/-- Concrete manifest entry for a segment whose file is absent. -/
def cMetaC : PkgMeta := ⟨"C", "f3", "h3"⟩

/-- Concrete two-segment manifest. -/
def cManifest : List PkgMeta := [cMetaA, cMetaB]

/-- Concrete filesystem where both package files are intact. -/
def cFsGood : FS := fun p =>
  if p = "f1" then some ⟨"h1", cPkgA⟩
  else if p = "f2" then some ⟨"h2", cPkgB⟩
  else none

/-- Concrete filesystem where segment A's file has been tampered with
(its digest no longer matches the manifest). -/
def cFsBadA : FS := fun p =>
  if p = "f1" then some ⟨"hX", cPkgA⟩
  else if p = "f2" then some ⟨"h2", cPkgB⟩
  else none

/-- Concrete filesystem where segment B's file has been tampered with. -/
def cFsBadB : FS := fun p =>
  if p = "f1" then some ⟨"h1", cPkgA⟩
  else if p = "f2" then some ⟨"hX", cPkgB⟩
  else none

/-- A freshly constructed loader state: nothing loaded, cache stale. -/
def cSt0 : LoaderState := ⟨[], none⟩

/-- Loader state after one fully successful `load_all_packages` pass. -/
def cSt1 : LoaderState := (load_all_packages cFsGood true cManifest cSt0).state

/-- Loader state after lazily loading only segment B of the manifest. -/
def cSt2 : LoaderState := (load_package cFsGood true cManifest cSt0 "B").1

/-- Loader state with segment A already cached. -/
def cStCachedA : LoaderState := ⟨[("A", cPkgA)], none⟩

/-- A raw legacy block whose content is the empty string. -/
def cRawEmptyContent : RawBlock := ⟨"b1", "", "", ""⟩

/-- A raw legacy block with ordinary content. -/
def cRawHello : RawBlock := ⟨"b2", "hello world data", "", ""⟩

/-- A concrete similarity-ratio function for the concrete detector
scenarios; it is never consulted on the paths those scenarios take. -/
def ratioZero : String → String → ℚ := fun _ _ => 0

theorem lookupSeg_dictInsert_self {α : Type} (d : List (String × α)) (k : String) (v : α) :
    lookupSeg (dictInsert d k v) k = some v := by
  induction d with
  | nil => simp [dictInsert, lookupSeg]
  | cons p t ih =>
    obtain ⟨k', v'⟩ := p
    by_cases h : k' = k
    · simp [dictInsert, h, lookupSeg]
    · simpa [dictInsert, h, lookupSeg] using ih

theorem lookupSeg_dictInsert_ne {α : Type} (d : List (String × α)) (k k' : String) (v : α)
    (h : k ≠ k') : lookupSeg (dictInsert d k v) k' = lookupSeg d k' := by
  induction d with
  | nil => simp [dictInsert, lookupSeg, h]
  | cons p t ih =>
    obtain ⟨k0, v0⟩ := p
    by_cases hp : k0 = k
    · simp [dictInsert, hp, lookupSeg, h]
    · by_cases hp' : k0 = k'
      · simp [dictInsert, hp, lookupSeg, hp', Ne.symm h]
      · simp [dictInsert, hp, lookupSeg, hp', ih]

theorem lookupSeg_dictInsert_isSome {α : Type} (d : List (String × α)) (k k' : String) (v : α)
    (h : (lookupSeg d k').isSome) : (lookupSeg (dictInsert d k v) k').isSome := by
  by_cases hk : k = k'
  · subst hk; simp [lookupSeg_dictInsert_self]
  · simpa [lookupSeg_dictInsert_ne d k k' v hk] using h

theorem dictInsert_of_lookup_none {α : Type} (d : List (String × α)) (k : String) (v : α)
    (h : lookupSeg d k = none) : dictInsert d k v = d ++ [(k, v)] := by
  induction d with
  | nil => simp [dictInsert]
  | cons p t ih =>
    obtain ⟨k0, v0⟩ := p
    by_cases hp : k0 = k
    · simp [lookupSeg, hp] at h
    · simp only [lookupSeg, if_neg hp] at h
      simp [dictInsert, if_neg hp, ih h]

theorem lookupSeg_append_left {α : Type} (d d' : List (String × α)) (k : String) (v : α)
    (h : lookupSeg d k = some v) : lookupSeg (d ++ d') k = some v := by
  induction d with
  | nil => simp [lookupSeg] at h
  | cons p t ih =>
    obtain ⟨k0, v0⟩ := p
    by_cases hp : k0 = k
    · simpa [lookupSeg, hp] using h
    · simp only [lookupSeg, if_neg hp] at h
      simpa [lookupSeg, hp] using ih h

theorem lookupSeg_append_none {α : Type} (d d' : List (String × α)) (k : String)
    (h : lookupSeg d k = none) : lookupSeg (d ++ d') k = lookupSeg d' k := by
  induction d with
  | nil => simp
  | cons p t ih =>
    obtain ⟨k0, v0⟩ := p
    by_cases hp : k0 = k
    · simp [lookupSeg, hp] at h
    · simp only [lookupSeg, if_neg hp] at h
      simpa [lookupSeg, hp] using ih h

theorem applyMetas_lookup_of_not_mem (fs : FS) (metas : List PkgMeta)
    (d : List (String × Package)) (s : String)
    (h : s ∉ metas.map (fun m' => m'.segmento)) :
    lookupSeg (applyMetas fs metas d) s = lookupSeg d s := by
  induction metas generalizing d with
  | nil => simp [applyMetas]
  | cons m0 rest ih =>
    simp only [List.map_cons, List.mem_cons, not_or] at h
    simp only [applyMetas]
    rw [ih _ h.2, lookupSeg_dictInsert_ne]
    exact fun hc => h.1 hc.symm

theorem applyMetas_isSome_mono (fs : FS) (metas : List PkgMeta)
    (d : List (String × Package)) (s : String)
    (h : (lookupSeg d s).isSome) :
    (lookupSeg (applyMetas fs metas d) s).isSome := by
  induction metas generalizing d with
  | nil => simpa [applyMetas] using h
  | cons m0 rest ih =>
    simp only [applyMetas]
    exact ih _ (lookupSeg_dictInsert_isSome _ _ _ _ h)

theorem applyMetas_mem_isSome (fs : FS) (metas : List PkgMeta)
    (d : List (String × Package)) (m' : PkgMeta) (h : m' ∈ metas) :
    (lookupSeg (applyMetas fs metas d) m'.segmento).isSome := by
  induction metas generalizing d with
  | nil => simp at h
  | cons m0 rest ih =>
    rcases List.mem_cons.mp h with h0 | h0
    · subst h0
      simp only [applyMetas]
      exact applyMetas_isSome_mono _ _ _ _ (by simp [lookupSeg_dictInsert_self])
    · simp only [applyMetas]
      exact ih _ h0

theorem applyMetas_of_fresh (fs : FS) (metas : List PkgMeta)
    (d : List (String × Package))
    (h1 : ∀ m' ∈ metas, lookupSeg d m'.segmento = none)
    (h2 : (metas.map (fun m' => m'.segmento)).Nodup) :
    applyMetas fs metas d = d ++ metas.map (fun m' => (m'.segmento, fileContentD fs m')) := by
  induction metas generalizing d with
  | nil => simp [applyMetas]
  | cons m0 rest ih =>
    simp only [List.map_cons, List.nodup_cons, List.mem_map] at h2
    simp only [applyMetas]
    rw [dictInsert_of_lookup_none _ _ _ (h1 m0 (List.mem_cons_self _ _)), ih]
    · simp
    · intro m' hm'
      rw [lookupSeg_append_none _ _ _ (h1 m' (List.mem_cons_of_mem _ hm'))]
      have hne : m0.segmento ≠ m'.segmento := fun hc => h2.1 ⟨m', hm', hc.symm⟩
      simp [lookupSeg, hne]
    · exact h2.2

theorem load_all_go_append (fs : FS) (vi : Bool) (pre l : List PkgMeta)
    (st : LoaderState) (h : ∀ m' ∈ pre, loadsOk fs vi m') :
    load_all_go fs vi (pre ++ l) st =
      ⟨(load_all_go fs vi l ⟨applyMetas fs pre st.packages, st.blocks_cache⟩).state,
       (load_all_go fs vi l ⟨applyMetas fs pre st.packages, st.blocks_cache⟩).error,
       pre.map (fun m' => .pkgInsert m'.segmento) ++
         (load_all_go fs vi l ⟨applyMetas fs pre st.packages, st.blocks_cache⟩).events⟩ := by
  induction pre generalizing st with
  | nil => simp [applyMetas]
  | cons m0 rest ih =>
    obtain ⟨fd, hfd, hv⟩ := h m0 (List.mem_cons_self _ _)
    have hcond : ¬(vi = true ∧ fd.hash ≠ m0.hash_integridade) := by
      rintro ⟨hvi, hne⟩
      exact hne (hv hvi)
    have hstep : load_all_go fs vi ((m0 :: rest) ++ l) st =
        ⟨(load_all_go fs vi (rest ++ l)
            ⟨dictInsert st.packages m0.segmento fd.content, st.blocks_cache⟩).state,
         (load_all_go fs vi (rest ++ l)
            ⟨dictInsert st.packages m0.segmento fd.content, st.blocks_cache⟩).error,
         .pkgInsert m0.segmento :: (load_all_go fs vi (rest ++ l)
            ⟨dictInsert st.packages m0.segmento fd.content, st.blocks_cache⟩).events⟩ := by
      simp only [List.cons_append, load_all_go, hfd, if_neg hcond, List.append_eq]
    rw [hstep, ih _ (fun m' hm' => h m' (List.mem_cons_of_mem _ hm'))]
    have hcontent : fileContentD fs m0 = fd.content := by
      simp [fileContentD, hfd]
    simp [applyMetas, hcontent]

theorem load_all_go_all_ok (fs : FS) (vi : Bool) (metas : List PkgMeta)
    (st : LoaderState) (h : ∀ m' ∈ metas, loadsOk fs vi m') :
    load_all_go fs vi metas st =
      ⟨⟨applyMetas fs metas st.packages, st.blocks_cache⟩, none,
       metas.map (fun m' => .pkgInsert m'.segmento)⟩ := by
  have := load_all_go_append fs vi metas [] st h
  simpa [load_all_go] using this

theorem load_all_go_no_invalidate (fs : FS) (vi : Bool) (metas : List PkgMeta)
    (st : LoaderState) :
    LoadEvent.cacheInvalidate ∉ (load_all_go fs vi metas st).events := by
  induction metas generalizing st with
  | nil => simp [load_all_go]
  | cons m0 rest ih =>
    simp only [load_all_go]
    match hfd : fs m0.file with
    | none => simp
    | some fd =>
      by_cases hcond : vi = true ∧ fd.hash ≠ m0.hash_integridade
      · simp [hcond]
      · simpa [hcond] using
          ih ⟨dictInsert st.packages m0.segmento fd.content, st.blocks_cache⟩

theorem insertByKeyDesc_perm {α : Type} (key : α → ℚ) (x : α) (l : List α) :
    List.Perm (insertByKeyDesc key x l) (x :: l) := by
  induction l with
  | nil =>
    simp only [insertByKeyDesc]
    exact List.Perm.refl _
  | cons y ys ih =>
    by_cases hxy : key x < key y
    · rw [insertByKeyDesc, if_pos hxy]
      exact (ih.cons y).trans (List.Perm.swap x y ys)
    · rw [insertByKeyDesc, if_neg hxy]

theorem sortByKeyDesc_perm {α : Type} (key : α → ℚ) (l : List α) :
    List.Perm (sortByKeyDesc key l) l := by
  induction l with
  | nil =>
    simp only [sortByKeyDesc]
    exact List.Perm.refl _
  | cons x xs ih =>
    exact (insertByKeyDesc_perm key x _).trans (ih.cons x)

theorem insertByKeyDesc_pairwise {α : Type} (key : α → ℚ) (x : α) (l : List α)
    (h : l.Pairwise (fun a b => key b ≤ key a)) :
    (insertByKeyDesc key x l).Pairwise (fun a b => key b ≤ key a) := by
  induction l with
  | nil => simp [insertByKeyDesc]
  | cons y ys ih =>
    rcases List.pairwise_cons.mp h with ⟨hy, hys⟩
    by_cases hxy : key x < key y
    · rw [insertByKeyDesc, if_pos hxy]
      refine List.pairwise_cons.mpr ⟨?_, ih hys⟩
      intro b hb
      rcases List.mem_cons.mp ((insertByKeyDesc_perm key x ys).mem_iff.mp hb) with rfl | hb'
      · exact le_of_lt hxy
      · exact hy b hb'
    · rw [insertByKeyDesc, if_neg hxy]
      refine List.pairwise_cons.mpr ⟨?_, h⟩
      intro b hb
      rcases List.mem_cons.mp hb with rfl | hb'
      · exact le_of_not_lt hxy
      · exact le_trans (hy b hb') (le_of_not_lt hxy)

theorem sortByKeyDesc_pairwise {α : Type} (key : α → ℚ) (l : List α) :
    (sortByKeyDesc key l).Pairwise (fun a b => key b ≤ key a) := by
  induction l with
  | nil => simp [sortByKeyDesc]
  | cons x xs ih => exact insertByKeyDesc_pairwise key x _ ih

theorem filter_insertByKeyDesc_of_ne {α : Type} (key : α → ℚ) (x : α) (l : List α)
    (s : ℚ) (hx : key x ≠ s) :
    (insertByKeyDesc key x l).filter (fun a => key a = s) =
      l.filter (fun a => key a = s) := by
  induction l with
  | nil => simp [insertByKeyDesc, hx]
  | cons y ys ih =>
    by_cases hxy : key x < key y
    · rw [insertByKeyDesc, if_pos hxy]
      by_cases hy : key y = s
      · simp [List.filter, hy, ih]
      · simp [List.filter, hy, ih]
    · rw [insertByKeyDesc, if_neg hxy]
      simp [List.filter, hx]

theorem filter_insertByKeyDesc_of_eq {α : Type} (key : α → ℚ) (x : α) (l : List α)
    (s : ℚ) (hx : key x = s) :
    (insertByKeyDesc key x l).filter (fun a => key a = s) =
      x :: l.filter (fun a => key a = s) := by
  induction l with
  | nil => simp [insertByKeyDesc, hx]
  | cons y ys ih =>
    by_cases hxy : key x < key y
    · have hy : key y ≠ s := by
        intro hc
        rw [← hx] at hc
        exact absurd hc (ne_of_gt hxy)
      rw [insertByKeyDesc, if_pos hxy]
      simp [List.filter, hy, ih]
    · rw [insertByKeyDesc, if_neg hxy]
      simp [List.filter, hx]

theorem filter_sortByKeyDesc {α : Type} (key : α → ℚ) (l : List α) (s : ℚ) :
    (sortByKeyDesc key l).filter (fun a => key a = s) =
      l.filter (fun a => key a = s) := by
  induction l with
  | nil => simp [sortByKeyDesc]
  | cons x xs ih =>
    by_cases hx : key x = s
    · rw [sortByKeyDesc, filter_insertByKeyDesc_of_eq key x _ s hx, ih]
      simp [List.filter, hx]
    · rw [sortByKeyDesc, filter_insertByKeyDesc_of_ne key x _ s hx, ih]
      simp [List.filter, hx]

theorem filter_take_isPrefixOf {α : Type} (l : List α) (k : Nat) (p : α → Bool) :
    (l.take k).filter p <+: l.filter p := by
  refine ⟨(l.drop k).filter p, ?_⟩
  rw [← List.filter_append, List.take_append_drop]

theorem searchScored_cons (query : String) (b : Block) (t : List Block) :
    searchScored query (b :: t) =
      if 0 < blockScore query b then (blockScore query b, b) :: searchScored query t
      else searchScored query t := by
  simp only [searchScored, List.filterMap_cons]
  by_cases hpos : 0 < blockScore query b
  · simp [hpos]
  · simp [hpos]

theorem mem_searchScored (query : String) (source : List Block) (p : ℚ × Block)
    (h : p ∈ searchScored query source) :
    0 < p.1 ∧ p.1 = blockScore query p.2 ∧ p.2 ∈ source := by
  induction source with
  | nil => simp [searchScored] at h
  | cons b t ih =>
    rw [searchScored_cons] at h
    by_cases hpos : 0 < blockScore query b
    · rw [if_pos hpos] at h
      rcases List.mem_cons.mp h with rfl | h'
      · exact ⟨hpos, rfl, List.mem_cons_self _ _⟩
      · obtain ⟨h1, h2, h3⟩ := ih h'
        exact ⟨h1, h2, List.mem_cons_of_mem _ h3⟩
    · rw [if_neg hpos] at h
      obtain ⟨h1, h2, h3⟩ := ih h
      exact ⟨h1, h2, List.mem_cons_of_mem _ h3⟩

theorem searchScored_filter_eq (query : String) (source : List Block) (s : ℚ)
    (hs : 0 < s) :
    (searchScored query source).filter (fun p => p.1 = s) =
      (source.filter (fun b => blockScore query b = s)).map (fun b => (s, b)) := by
  induction source with
  | nil => simp [searchScored]
  | cons b t ih =>
    rw [searchScored_cons]
    by_cases hb : blockScore query b = s
    · have hpos : 0 < blockScore query b := hb ▸ hs
      rw [if_pos hpos]
      simp [List.filter_cons, hb, ih]
    · by_cases hpos : 0 < blockScore query b
      · rw [if_pos hpos]
        simp [List.filter_cons, hb, ih]
      · rw [if_neg hpos]
        simp [List.filter_cons, hb, ih]

theorem search_blocks_length_le (query : String) (source : List Block) (k : Nat) :
    (search_blocks query source k).length ≤ k := by
  simp only [search_blocks, List.length_map]
  exact le_trans (List.length_take_le _ _) (le_refl _)

theorem search_blocks_mem_pos (query : String) (source : List Block) (k : Nat)
    (b : Block) (h : b ∈ search_blocks query source k) : 0 < blockScore query b := by
  simp only [search_blocks, List.mem_map] at h
  obtain ⟨p, hp, rfl⟩ := h
  have hp' : p ∈ sortByKeyDesc Prod.fst (searchScored query source) :=
    List.mem_of_mem_take hp
  have hp'' : p ∈ searchScored query source :=
    (sortByKeyDesc_perm Prod.fst _).mem_iff.mp hp'
  obtain ⟨h1, h2, _⟩ := mem_searchScored query source p hp''
  exact h2 ▸ h1

theorem search_blocks_sorted (query : String) (source : List Block) (k : Nat) :
    (search_blocks query source k).Pairwise
      (fun a b => blockScore query b ≤ blockScore query a) := by
  simp only [search_blocks]
  rw [List.pairwise_map]
  have hpair : (sortByKeyDesc Prod.fst (searchScored query source)).Pairwise
      (fun p q : ℚ × Block => q.1 ≤ p.1) := sortByKeyDesc_pairwise Prod.fst _
  have htake : ((sortByKeyDesc Prod.fst (searchScored query source)).take k).Pairwise
      (fun p q : ℚ × Block => q.1 ≤ p.1) :=
    hpair.sublist (List.take_sublist _ _)
  refine htake.imp_of_mem ?_
  intro p q hp hq hle
  have hp' : p ∈ searchScored query source :=
    (sortByKeyDesc_perm Prod.fst _).mem_iff.mp (List.mem_of_mem_take hp)
  have hq' : q ∈ searchScored query source :=
    (sortByKeyDesc_perm Prod.fst _).mem_iff.mp (List.mem_of_mem_take hq)
  rw [← (mem_searchScored query source p hp').2.1,
    ← (mem_searchScored query source q hq').2.1]
  exact hle

theorem search_blocks_stable (query : String) (source : List Block) (k : Nat)
    (s : ℚ) (hs : 0 < s) :
    (search_blocks query source k).filter (fun b => blockScore query b = s) <+:
      source.filter (fun b => blockScore query b = s) := by
  simp only [search_blocks]
  rw [List.filter_map]
  have hcongr : ((sortByKeyDesc Prod.fst (searchScored query source)).take k).filter
      ((fun b => decide (blockScore query b = s)) ∘ Prod.snd) =
      ((sortByKeyDesc Prod.fst (searchScored query source)).take k).filter
        (fun p => p.1 = s) := by
    refine List.filter_congr ?_
    intro p hp
    have hp' : p ∈ searchScored query source :=
      (sortByKeyDesc_perm Prod.fst _).mem_iff.mp (List.mem_of_mem_take hp)
    have hps : p.1 = blockScore query p.2 := (mem_searchScored query source p hp').2.1
    simp only [Function.comp_apply, decide_eq_decide]
    rw [hps]
  rw [hcongr]
  have hpre : ((sortByKeyDesc Prod.fst (searchScored query source)).take k).filter
      (fun p => p.1 = s) <+:
      (sortByKeyDesc Prod.fst (searchScored query source)).filter (fun p => p.1 = s) :=
    filter_take_isPrefixOf _ _ _
  have hsorteq : (sortByKeyDesc Prod.fst (searchScored query source)).filter
      (fun p => p.1 = s) = (searchScored query source).filter (fun p => p.1 = s) :=
    filter_sortByKeyDesc Prod.fst _ s
  have hfinal : ((searchScored query source).filter (fun p => p.1 = s)).map Prod.snd =
      source.filter (fun b => blockScore query b = s) := by
    rw [searchScored_filter_eq query source s hs, List.map_map]
    simp
  obtain ⟨t, ht⟩ := hpre
  refine ⟨t.map Prod.snd, ?_⟩
  rw [← List.map_append, ht, hsorteq, hfinal]

/-- C4: for every loaded state, query and `k`, `search_blocks` returns at
most `k` blocks, every returned block has strictly positive computed
relevance score (hence never score 0), the returned scores are
non-increasing, and blocks with equal (positive) scores appear as a
prefix of — hence in the same order as — the source's blocks of that
score (stable sort, insertion order). -/
theorem search_blocks_spec (st : LoaderState) (query : String) (k : Nat) :
    (search_blocks query (all_blocks st).2 k).length ≤ k ∧
    (∀ b ∈ search_blocks query (all_blocks st).2 k, 0 < blockScore query b) ∧
    (search_blocks query (all_blocks st).2 k).Pairwise
      (fun a b => blockScore query b ≤ blockScore query a) ∧
    (∀ s : ℚ, 0 < s →
      (search_blocks query (all_blocks st).2 k).filter
        (fun b => blockScore query b = s) <+:
        (all_blocks st).2.filter (fun b => blockScore query b = s)) :=
  ⟨search_blocks_length_le query _ k,
   fun b hb => search_blocks_mem_pos query _ k b hb,
   search_blocks_sorted query _ k,
   fun s hs => search_blocks_stable query _ k s hs⟩

theorem all_blocks_idem (st : LoaderState) :
    all_blocks (all_blocks st).1 = ((all_blocks st).1, (all_blocks st).2) := by
  match h : st.blocks_cache with
  | some c => simp [all_blocks, h]
  | none => simp [all_blocks, h]

/-- C5: for every loaded state and `n`, `get_top_blocks_by_priority`
returns `min n total` blocks, sorted non-increasingly by
`embedding_priority`, blocks of equal priority keeping their original
insertion order (the returned blocks of any fixed priority are a prefix
of the source's blocks of that priority), and the call is idempotent:
repeating it on the state it returns yields the same state and the same
sequence. -/
theorem get_top_blocks_by_priority_spec (st : LoaderState) (n : Nat) :
    ((get_top_blocks_by_priority st n).2.length = min n (all_blocks st).2.length) ∧
    (get_top_blocks_by_priority st n).2.Pairwise
      (fun a b => b.embedding_priority ≤ a.embedding_priority) ∧
    (∀ q : ℚ, (get_top_blocks_by_priority st n).2.filter
        (fun b => b.embedding_priority = q) <+:
        (all_blocks st).2.filter (fun b => b.embedding_priority = q)) ∧
    get_top_blocks_by_priority (get_top_blocks_by_priority st n).1 n =
      get_top_blocks_by_priority st n := by
  refine ⟨?_, ?_, ?_, ?_⟩
  · simp [get_top_blocks_by_priority, List.length_take,
      (sortByKeyDesc_perm (fun b : Block => b.embedding_priority) (all_blocks st).2).length_eq]
  · exact (sortByKeyDesc_pairwise (fun b : Block => b.embedding_priority) _).sublist
      (List.take_sublist _ _)
  · intro q
    have h1 := filter_take_isPrefixOf
      (sortByKeyDesc (fun b : Block => b.embedding_priority) (all_blocks st).2) n
      (fun b => decide (b.embedding_priority = q))
    have h2 := filter_sortByKeyDesc (fun b : Block => b.embedding_priority) (all_blocks st).2 q
    simp only [get_top_blocks_by_priority]
    rw [← h2]
    exact h1
  · simp only [get_top_blocks_by_priority, all_blocks_idem st]

/-- C6: when a manifest entry's file is absent, `load_all_packages`
fails with the package-file-missing error, and every package whose
descriptor precedes the missing one (already processed in the pass)
remains loaded in the package cache: no rollback. -/
theorem load_all_missing_file_no_rollback (fs : FS) (vi : Bool)
    (pre rest : List PkgMeta) (meta : PkgMeta) (st : LoaderState)
    (hpre : ∀ m' ∈ pre, loadsOk fs vi m')
    (hmiss : fs meta.file = none) :
    (load_all_packages fs vi (pre ++ meta :: rest) st).error =
      some (.packageFileMissing meta.file) ∧
    ∀ m' ∈ pre,
      (lookupSeg (load_all_packages fs vi (pre ++ meta :: rest) st).state.packages
        m'.segmento).isSome := by
  have hgo := load_all_go_append fs vi pre (meta :: rest) ⟨st.packages, none⟩ hpre
  constructor
  · simp only [load_all_packages, hgo, load_all_go, hmiss]
  · intro m' hm'
    simp only [load_all_packages, hgo, load_all_go, hmiss]
    exact applyMetas_mem_isSome fs pre st.packages m' hm'

/-- Witness for C6: with segment A's file present and segment C's file
absent, the pass fails with the missing-file error and A stays loaded. -/
theorem load_all_missing_file_no_rollback_witness :
    (load_all_packages cFsGood true [cMetaA, cMetaC] cSt0).error =
      some (.packageFileMissing "f3") ∧
    (lookupSeg (load_all_packages cFsGood true [cMetaA, cMetaC] cSt0).state.packages
      "A").isSome := by
  have h := load_all_missing_file_no_rollback cFsGood true [cMetaA] [] cMetaC cSt0
    (by
      intro m' hm'
      simp only [List.mem_singleton] at hm'
      subst hm'
      exact ⟨⟨"h1", cPkgA⟩, rfl, fun _ => rfl⟩)
    rfl
  exact ⟨h.1, h.2 cMetaA (List.mem_singleton.mpr rfl)⟩

/-- C1 (amended): with integrity validation on, a hash mismatch makes
`load_all_packages` fail with `IntegrityError` naming the segment, and
the failing segment is not inserted during the pass — if it was absent
from the package cache before the call it is still absent afterwards.
(A copy cached by an earlier successful load, however, survives: see the
counterexample.) -/
theorem load_all_integrity_failure_not_inserted (fs : FS)
    (pre rest : List PkgMeta) (meta : PkgMeta) (fd : FileData) (st : LoaderState)
    (hpre : ∀ m' ∈ pre, loadsOk fs true m')
    (hfd : fs meta.file = some fd)
    (hbad : fd.hash ≠ meta.hash_integridade)
    (hfresh : lookupSeg st.packages meta.segmento = none)
    (hnotpre : meta.segmento ∉ pre.map (fun m' => m'.segmento)) :
    (load_all_packages fs true (pre ++ meta :: rest) st).error =
      some (.integrityError meta.segmento) ∧
    lookupSeg (load_all_packages fs true (pre ++ meta :: rest) st).state.packages
      meta.segmento = none := by
  have hgo := load_all_go_append fs true pre (meta :: rest) ⟨st.packages, none⟩ hpre
  constructor
  · simp only [load_all_packages, hgo, load_all_go, hfd]
    rw [if_pos ⟨trivial, hbad⟩]
  · simp only [load_all_packages, hgo, load_all_go, hfd]
    rw [if_pos ⟨trivial, hbad⟩]
    simp only
    rw [applyMetas_lookup_of_not_mem fs pre st.packages _ hnotpre]
    exact hfresh

/-- Witness for C1: starting from a fresh loader, a tampered file for
segment B fails the pass with `IntegrityError` and B is not cached. -/
theorem load_all_integrity_failure_not_inserted_witness :
    (load_all_packages cFsBadB true cManifest cSt0).error =
      some (.integrityError "B") ∧
    lookupSeg (load_all_packages cFsBadB true cManifest cSt0).state.packages
      "B" = none :=
  load_all_integrity_failure_not_inserted cFsBadB [cMetaA] [] cMetaB
    ⟨"hX", cPkgB⟩ cSt0
    (by
      intro m' hm'
      simp only [List.mem_singleton] at hm'
      subst hm'
      exact ⟨⟨"h1", cPkgA⟩, rfl, fun _ => rfl⟩)
    rfl (by decide) rfl (by decide)

/-- Counterexample for C1 as stated: segment A is loaded successfully,
the on-disk file is then tampered with, and a second `load_all_packages`
fails with `IntegrityError` for A — yet the previously loaded copy of A
is still in the package cache, contradicting the claim's "not left in
the package cache" over prior load histories. -/
theorem load_all_integrity_stale_segment_counterexample :
    (load_all_packages cFsBadA true cManifest cSt1).error =
      some (.integrityError "A") ∧
    (lookupSeg (load_all_packages cFsBadA true cManifest cSt1).state.packages
      "A").isSome := by
  constructor
  · decide
  · decide

/-- C2 (amended): when `load_all_packages` succeeds starting from an
empty package cache (e.g. a fresh loader) and the manifest's segment
names are distinct, the flat block cache equals the concatenation, in
manifest order, of each package's `knowledge_blocks`.  (In general the
flat cache follows the package cache's insertion order, which an earlier
`load_package` call can make differ from manifest order: see the
counterexample.) -/
theorem load_all_cache_manifest_order_from_empty (fs : FS) (vi : Bool)
    (manifest : List PkgMeta) (st : LoaderState)
    (hempty : st.packages = [])
    (hok : ∀ m' ∈ manifest, loadsOk fs vi m')
    (hnodup : (manifest.map (fun m' => m'.segmento)).Nodup) :
    (load_all_packages fs vi manifest st).error = none ∧
    (all_blocks (load_all_packages fs vi manifest st).state).2 =
      (manifest.map (fun m' => (fileContentD fs m').knowledge_blocks)).flatten := by
  have hgo := load_all_go_all_ok fs vi manifest ⟨st.packages, none⟩ hok
  constructor
  · simp [load_all_packages, hgo]
  · simp only [load_all_packages, hgo]
    rw [hempty]
    rw [applyMetas_of_fresh fs manifest [] (fun m' _ => rfl) hnodup]
    simp [all_blocks, List.map_map]
    rfl

/-- Witness for C2: a fresh loader loading the concrete two-segment
manifest ends with the flat cache in manifest order. -/
theorem load_all_cache_manifest_order_from_empty_witness :
    (load_all_packages cFsGood true cManifest cSt0).error = none ∧
    (all_blocks (load_all_packages cFsGood true cManifest cSt0).state).2 =
      (cManifest.map (fun m' => (fileContentD cFsGood m').knowledge_blocks)).flatten :=
  load_all_cache_manifest_order_from_empty cFsGood true cManifest cSt0 rfl
    (by
      intro m' hm'
      simp [cManifest] at hm'
      rcases hm' with rfl | rfl
      · exact ⟨⟨"h1", cPkgA⟩, rfl, fun _ => rfl⟩
      · exact ⟨⟨"h2", cPkgB⟩, rfl, fun _ => rfl⟩)
    (by decide)

/-- Counterexample for C2 as stated: lazily load segment B first, then
run a fully successful `load_all_packages`; the flat cache lists B's
blocks before A's, not the manifest order A then B. -/
theorem load_all_cache_order_counterexample :
    (load_all_packages cFsGood true cManifest cSt2).error = none ∧
    (all_blocks (load_all_packages cFsGood true cManifest cSt2).state).2 ≠
      (cManifest.map (fun m' => (fileContentD cFsGood m').knowledge_blocks)).flatten := by
  constructor
  · decide
  · decide

/-- C8 (amended): during every `load_all_packages` call the flat block
cache is invalidated exactly once, and that single invalidation is the
first mutation of the pass — it precedes every package parse and
insertion (so even a failing pass leaves the cache invalidated). -/
theorem load_all_invalidate_once_at_start (fs : FS) (vi : Bool)
    (manifest : List PkgMeta) (st : LoaderState) :
    (load_all_packages fs vi manifest st).events.head? =
      some LoadEvent.cacheInvalidate ∧
    (load_all_packages fs vi manifest st).events.count LoadEvent.cacheInvalidate = 1 := by
  constructor
  · simp [load_all_packages]
  · simp only [load_all_packages, List.count_cons]
    rw [List.count_eq_zero.mpr (load_all_go_no_invalidate fs vi manifest ⟨st.packages, none⟩)]
    simp

/-- Counterexample for C8 as stated: on a successful one-package pass
the event log is invalidate-then-insert, so the single invalidation is
not at the end of the pass after the package was inserted. -/
theorem load_all_invalidate_at_end_counterexample :
    (load_all_packages cFsGood true [cMetaA] cSt0).events =
      [LoadEvent.cacheInvalidate, LoadEvent.pkgInsert "A"] ∧
    (load_all_packages cFsGood true [cMetaA] cSt0).events.getLast? ≠
      some LoadEvent.cacheInvalidate := by
  constructor
  · decide
  · decide

/-- C10: requesting a segment that is already in the package cache via
`load_package` returns the cached package and leaves the loader state
(package cache and flat block cache) unchanged; the result is the same
for every filesystem and for both settings of `validate_integrity`, so
no file is re-read and no integrity re-verification happens even if the
on-disk file has changed. -/
theorem load_package_cached_noop (fs : FS) (vi : Bool) (manifest : List PkgMeta)
    (st : LoaderState) (segment : String) (pkg : Package)
    (hcached : lookupSeg st.packages segment = some pkg)
    (hman : ∃ meta ∈ manifest, meta.segmento = segment) :
    load_package fs vi manifest st segment = (st, .ok pkg) := by
  induction manifest with
  | nil => simp at hman
  | cons meta rest ih =>
    by_cases hseg : meta.segmento = segment
    · simp only [load_package, load_package_go, if_pos hseg, hcached]
    · obtain ⟨m', hm', hs⟩ := hman
      rcases List.mem_cons.mp hm' with rfl | hm''
      · exact absurd hs hseg
      · simp only [load_package, load_package_go, if_neg hseg]
        simpa [load_package] using ih ⟨m', hm'', hs⟩

/-- Witness for C10: with segment A cached, `load_package` returns the
cached copy unchanged even against a filesystem where A's file was
tampered with and validation is on. -/
theorem load_package_cached_noop_witness :
    load_package cFsBadA true cManifest cStCachedA "A" = (cStCachedA, .ok cPkgA) :=
  load_package_cached_noop cFsBadA true cManifest cStCachedA "A" cPkgA rfl
    ⟨cMetaA, List.mem_cons_self _ _, rfl⟩

theorem prepare_mem_inv (source : List Block) (d : VectorDoc)
    (h : d ∈ prepare_for_vectorization source) :
    ∃ b ∈ source, b.vector_ready = true ∧ d = toVectorDoc b := by
  simp only [prepare_for_vectorization, List.mem_filterMap] at h
  obtain ⟨b, hb, heq⟩ := h
  by_cases hv : b.vector_ready
  · rw [if_pos hv] at heq
    cases heq
    exact ⟨b, hb, hv, rfl⟩
  · rw [if_neg hv] at heq
    cases heq

theorem filter_id_length_eq_count (source : List Block) (v : String) :
    (source.filter (fun b => b.id = v)).length = (source.map Block.id).count v := by
  induction source with
  | nil => simp
  | cons b t ih =>
    by_cases hb : b.id = v
    · simp [List.filter_cons, hb, List.count_cons, ih]
    · simp [List.filter_cons, hb, List.count_cons, ih]

theorem prepare_ids_eq (source : List Block) :
    (prepare_for_vectorization source).map VectorDoc.id =
      (source.filter (fun b => b.vector_ready)).map Block.id := by
  induction source with
  | nil => simp [prepare_for_vectorization]
  | cons b t ih =>
    simp only [prepare_for_vectorization] at ih
    by_cases hv : b.vector_ready
    · simp only [prepare_for_vectorization, List.filterMap_cons, if_pos hv, List.map_cons]
      rw [ih]
      simp [List.filter_cons, hv, toVectorDoc]
    · simp only [prepare_for_vectorization, List.filterMap_cons, if_neg hv]
      rw [ih]
      simp [List.filter_cons, hv]

/-- C7 (amended): `prepare_for_vectorization` emits exactly the
vector-ready blocks (its documents' ids are the ids of the
`vector_ready` blocks, in order — a block whose flag is false is never
included), and when the queried collection's block ids are pairwise
distinct, every returned document's id matches exactly one source
block.  (The code does not enforce id uniqueness: see the
counterexample.) -/
theorem prepare_for_vectorization_spec (source : List Block)
    (h : (source.map Block.id).Nodup) :
    ((prepare_for_vectorization source).map VectorDoc.id =
      (source.filter (fun b => b.vector_ready)).map Block.id) ∧
    (∀ d ∈ prepare_for_vectorization source,
      ∃ b ∈ source, b.vector_ready = true ∧ d = toVectorDoc b) ∧
    (∀ d ∈ prepare_for_vectorization source,
      (source.filter (fun b => b.id = d.id)).length = 1) := by
  refine ⟨prepare_ids_eq source, fun d hd => prepare_mem_inv source d hd, ?_⟩
  · intro d hd
    obtain ⟨b, hb, hv, rfl⟩ := prepare_mem_inv source d hd
    rw [filter_id_length_eq_count]
    have hmem : (toVectorDoc b).id ∈ source.map Block.id := by
      simp only [toVectorDoc]
      exact List.mem_map_of_mem Block.id hb
    exact List.count_eq_one_of_mem h hmem

/-- Witness for C7: on a source with distinct ids, only the
vector-ready block is emitted and its id matches exactly one block. -/
theorem prepare_for_vectorization_spec_witness :
    ((prepare_for_vectorization [cBlockX, cBlock "a"]).map VectorDoc.id =
      (([cBlockX, cBlock "a"].filter (fun b => b.vector_ready)).map Block.id)) ∧
    (([cBlockX, cBlock "a"]).filter
      (fun b => b.id = (toVectorDoc cBlockX).id)).length = 1 :=
  ⟨(prepare_for_vectorization_spec [cBlockX, cBlock "a"] (by decide)).1,
   (prepare_for_vectorization_spec [cBlockX, cBlock "a"] (by decide)).2.2
     (toVectorDoc cBlockX) (by decide)⟩

/-- Counterexample for C7 as stated: two vector-ready source blocks
share the id "x", so a returned document's id matches two source
blocks, not exactly one. -/
theorem prepare_for_vectorization_duplicate_id_counterexample :
    ¬ (∀ d ∈ prepare_for_vectorization [cBlockX, cBlockX],
        (([cBlockX, cBlockX]).filter (fun b => b.id = d.id)).length = 1) := by
  decide

/-- C9: `has_significant_changes` on empty new content — the empty dict,
or a dict whose content/text fields are empty — returns `false` for
every index, so the verdict is reached without inspecting the index (and
the model is total, so no exception is raised). -/
theorem has_significant_changes_empty_content (hashFn : String → String)
    (ratioFn : String → String → ℚ) (idx : List (String × IndexEntry))
    (nc : NewContent) (h : nc = [] ∨ extractText nc = "") :
    has_significant_changes hashFn ratioFn idx nc = false := by
  rcases h with h | h
  · simp [has_significant_changes, h]
  · by_cases hnc : nc = []
    · simp [has_significant_changes, hnc]
    · simp [has_significant_changes, hnc, h]

/-- Witness for C9: a dict with an empty text field and no content field
is judged not significant against an arbitrary concrete index. -/
theorem has_significant_changes_empty_content_witness :
    has_significant_changes id ratioZero (build_knowledge_index id [cRawHello])
      [("text", "")] = false :=
  has_significant_changes_empty_content id ratioZero _ [("text", "")]
    (Or.inr (by decide))

theorem mem_dictInsert {α : Type} (d : List (String × α)) (k : String) (v : α)
    (p : String × α) (h : p ∈ dictInsert d k v) : p = (k, v) ∨ p ∈ d := by
  induction d with
  | nil =>
    simp only [dictInsert, List.mem_singleton] at h
    exact Or.inl h
  | cons q t ih =>
    obtain ⟨k0, v0⟩ := q
    by_cases hk : k0 = k
    · rw [dictInsert, if_pos hk] at h
      rcases List.mem_cons.mp h with rfl | h'
      · exact Or.inl rfl
      · exact Or.inr (List.mem_cons_of_mem _ h')
    · rw [dictInsert, if_neg hk] at h
      rcases List.mem_cons.mp h with rfl | h'
      · exact Or.inr (List.mem_cons_self _ _)
      · rcases ih h' with h'' | h''
        · exact Or.inl h''
        · exact Or.inr (List.mem_cons_of_mem _ h'')

theorem build_knowledge_index_hash (hashFn : String → String)
    (blocks : List RawBlock) (p : String × IndexEntry)
    (h : p ∈ build_knowledge_index hashFn blocks) :
    p.2.hash = hash_text hashFn p.2.content := by
  induction blocks with
  | nil => simp [build_knowledge_index] at h
  | cons b rest ih =>
    by_cases hb : b.id = ""
    · rw [build_knowledge_index, if_pos hb] at h
      exact ih h
    · rw [build_knowledge_index, if_neg hb] at h
      rcases mem_dictInsert _ _ _ _ h with rfl | h'
      · rfl
      · exact ih h'

theorem foldl_max_le_of_le {β : Type} (f : β → ℚ) (l : List β) (c init : ℚ)
    (hi : init ≤ c) (h : ∀ x ∈ l, f x ≤ c) :
    l.foldl (fun m x => max m (f x)) init ≤ c := by
  induction l generalizing init with
  | nil => simpa using hi
  | cons x t ih =>
    simp only [List.foldl_cons]
    exact ih _ (max_le hi (h x (List.mem_cons_self _ _)))
      (fun y hy => h y (List.mem_cons_of_mem _ hy))

theorem maxSimilarity_foldl_le (ratioFn : String → String → ℚ) (text : String)
    (idx : List (String × IndexEntry)) (c init : ℚ) (hi : init ≤ c)
    (h : ∀ e ∈ idx, calculate_similarity ratioFn text e.2.content ≤ c) :
    idx.foldl (fun m e => max m (calculate_similarity ratioFn text e.2.content))
      init ≤ c := by
  induction idx generalizing init with
  | nil => simpa using hi
  | cons x t ih =>
    simp only [List.foldl_cons]
    exact ih _ (max_le hi (h x (List.mem_cons_self _ _)))
      (fun y hy => h y (List.mem_cons_of_mem _ hy))

theorem maxSimilarity_le (ratioFn : String → String → ℚ)
    (idx : List (String × IndexEntry)) (text : String) (c : ℚ) (h0 : (0 : ℚ) ≤ c)
    (h : ∀ e ∈ idx, calculate_similarity ratioFn text e.2.content ≤ c) :
    maxSimilarity ratioFn idx text ≤ c := by
  rw [maxSimilarity]
  exact maxSimilarity_foldl_le ratioFn text idx c 0 h0 h

/-- C3 (amended): `has_significant_changes` (a) returns `false` whenever
the new content's text is identical, after lowercasing and trimming, to
some indexed block's content; and (b) returns `true` for non-empty new
content whose normalised text differs from every indexed block's
normalised content (so no hash matches, the amendment the hash tier
forces), that shares no keywords with the index, and whose similarity
ratio against every indexed block's content is under the 0.85 threshold.
The digest is modelled as an injective function of the normalised
text. -/
theorem has_significant_changes_spec (hashFn : String → String)
    (ratioFn : String → String → ℚ) (blocks : List RawBlock) (nc : NewContent) :
    ((∃ e ∈ (build_knowledge_index hashFn blocks).map Prod.snd,
        normalizeText (extractText nc) = normalizeText e.content) →
      has_significant_changes hashFn ratioFn (build_knowledge_index hashFn blocks)
        nc = false) ∧
    (Function.Injective hashFn → extractText nc ≠ "" →
      (∀ e ∈ (build_knowledge_index hashFn blocks).map Prod.snd,
        normalizeText (extractText nc) ≠ normalizeText e.content) →
      (∀ e ∈ (build_knowledge_index hashFn blocks).map Prod.snd,
        calculate_similarity ratioFn (extractText nc) e.content < 85 / 100) →
      (∀ e ∈ (build_knowledge_index hashFn blocks).map Prod.snd,
        ∀ w ∈ extract_keywords (extractText nc), w ∉ e.keywords) →
      has_significant_changes hashFn ratioFn (build_knowledge_index hashFn blocks)
        nc = true) := by
  constructor
  · rintro ⟨e, he, heq⟩
    by_cases hnc : nc = []
    · simp [has_significant_changes, hnc]
    · by_cases htext : extractText nc = ""
      · simp [has_significant_changes, hnc, htext]
      · have hany : (build_knowledge_index hashFn blocks).any
            (fun p => p.2.hash = hash_text hashFn (extractText nc)) = true := by
          rw [List.any_eq_true]
          obtain ⟨p, hp, rfl⟩ := List.mem_map.mp he
          refine ⟨p, hp, ?_⟩
          simp only [decide_eq_true_eq]
          rw [build_knowledge_index_hash hashFn blocks p hp]
          simp [hash_text, heq]
        simp [has_significant_changes, hnc, htext, hany]
  · intro hinj htext hdiff hsim hkw
    have hnc : nc ≠ [] := by
      intro hc
      subst hc
      exact htext rfl
    have hany : (build_knowledge_index hashFn blocks).any
        (fun p => p.2.hash = hash_text hashFn (extractText nc)) = false := by
      by_contra hany'
      rw [Bool.not_eq_false, List.any_eq_true] at hany'
      obtain ⟨p, hp, hpeq⟩ := hany'
      rw [decide_eq_true_eq] at hpeq
      have hph := build_knowledge_index_hash hashFn blocks p hp
      rw [hph] at hpeq
      have h3 := hinj hpeq
      exact hdiff p.2 (List.mem_map_of_mem Prod.snd hp) h3.symm
    have hmax : ¬ ((85 : ℚ) / 100 <
        maxSimilarity ratioFn (build_knowledge_index hashFn blocks) (extractText nc)) := by
      rw [not_lt]
      exact maxSimilarity_le ratioFn _ _ ((85 : ℚ) / 100) (by norm_num)
        (fun e he => le_of_lt (hsim e.2 (List.mem_map_of_mem Prod.snd he)))
    have hov : ¬ ((9 : ℚ) / 10 <
        calculate_keyword_overlap (extract_keywords (extractText nc))) := by
      rw [calculate_keyword_overlap]
      norm_num
    simp [has_significant_changes, hnc, htext, hany, hmax, hov]

/-- Witness for C3: (a) content differing from an indexed block only in
case is judged not significant; (b) unrelated non-empty content sharing
no keywords, hash-distinct and similarity 0 against the single indexed
block, is judged significant. -/
theorem has_significant_changes_spec_witness :
    has_significant_changes id ratioZero (build_knowledge_index id [cRawHello])
      [("content", "Hello World Data")] = false ∧
    has_significant_changes id ratioZero (build_knowledge_index id [cRawHello])
      [("content", "zzzzz unrelated")] = true := by
  have hsingle : (build_knowledge_index id [cRawHello]).map Prod.snd =
      [mkIndexEntry id cRawHello] := rfl
  constructor
  · exact (has_significant_changes_spec id ratioZero [cRawHello]
      [("content", "Hello World Data")]).1
      ⟨mkIndexEntry id cRawHello,
        by rw [hsingle]; exact List.mem_singleton.mpr rfl,
        by decide⟩
  · refine (has_significant_changes_spec id ratioZero [cRawHello]
      [("content", "zzzzz unrelated")]).2
      (fun a b h => h) (by decide) ?_ ?_ ?_
    · intro e he
      rw [hsingle] at he
      rw [List.mem_singleton.mp he]
      decide
    · intro e he
      rw [hsingle] at he
      rw [List.mem_singleton.mp he]
      rw [calculate_similarity, if_neg (by decide)]
      norm_num [ratioZero]
    · intro e he
      rw [hsingle] at he
      rw [List.mem_singleton.mp he]
      decide

/-- Counterexample for C3 as stated: the index holds a block with empty
raw content, and the new content is a single space.  The text is
non-empty, it shares no keywords with the index, and its similarity
ratio against the only indexed block is 0 (under the threshold), yet
`has_significant_changes` returns `false`, because the normalised text
(the empty string) hash-matches the indexed block's normalised empty
content in the first tier. -/
theorem has_significant_changes_hash_tier_counterexample :
    extractText [("content", " ")] ≠ "" ∧
    (∀ e ∈ (build_knowledge_index id [cRawEmptyContent]).map Prod.snd,
      calculate_similarity ratioZero (extractText [("content", " ")]) e.content
        < 85 / 100) ∧
    (∀ e ∈ (build_knowledge_index id [cRawEmptyContent]).map Prod.snd,
      ∀ w ∈ extract_keywords (extractText [("content", " ")]), w ∉ e.keywords) ∧
    has_significant_changes id ratioZero (build_knowledge_index id [cRawEmptyContent])
      [("content", " ")] = false := by
  have hsingle : (build_knowledge_index id [cRawEmptyContent]).map Prod.snd =
      [mkIndexEntry id cRawEmptyContent] := rfl
  refine ⟨by decide, ?_, by decide, by decide⟩
  intro e he
  rw [hsingle] at he
  rw [List.mem_singleton.mp he]
  have hc : (mkIndexEntry id cRawEmptyContent).content = "" := rfl
  rw [calculate_similarity, hc, if_pos (Or.inr rfl)]
  norm_num
